import Mathlib

/-!
# FamilyVault-Admin: family-tree editor, shallow embedding

Verification of the family-tree editing core of the FamilyVault admin
console.  The definitions below are translated from the TypeScript
source: the `Member` record type and the editor handlers from
`src/components/MemberEditor.tsx`, the load-time `normalize` and the
root container callbacks from `src/pages/FamilyEditor.tsx`, and the
read-only `countMembers` aggregate from `src/pages/Dashboard.tsx`.
-/

set_option maxHeartbeats 1000000

namespace FamilyVault

/-- The `status` field of a member: the TS type is `'Deceased' | null`;
we model the non-null case as a one-constructor type, so the field is
`Option Status`. -/
inductive Status where
  | deceased
deriving DecidableEq

/-- `Member` from `src/components/MemberEditor.tsx` (identical to
`FamilyMember` in `FamilyEditor.tsx` and `src/types/member.ts`): every
optional field is `T | null`, modelled as `Option`.  `spouseObj` is at
most one owned member; `children` is `Member[] | null`. -/
inductive Member where
  | mk (id : String) (name : String)
       (image : Option String) (address : Option String)
       (phone : Option String) (occupation : Option String)
       (status : Option Status)
       (spouseObj : Option Member)
       (children : Option (List Member))

def Member.id : Member → String
  | .mk i _ _ _ _ _ _ _ _ => i

def Member.name : Member → String
  | .mk _ n _ _ _ _ _ _ _ => n

def Member.image : Member → Option String
  | .mk _ _ im _ _ _ _ _ _ => im

def Member.address : Member → Option String
  | .mk _ _ _ ad _ _ _ _ _ => ad

def Member.phone : Member → Option String
  | .mk _ _ _ _ ph _ _ _ _ => ph

def Member.occupation : Member → Option String
  | .mk _ _ _ _ _ oc _ _ _ => oc

def Member.status : Member → Option Status
  | .mk _ _ _ _ _ _ st _ _ => st

def Member.spouseObj : Member → Option Member
  | .mk _ _ _ _ _ _ _ sp _ => sp

def Member.children : Member → Option (List Member)
  | .mk _ _ _ _ _ _ _ _ ch => ch

/-- A raw persisted document node, as read back from the database before
normalization (`FamilyEditor.tsx`): every field may be absent/null, the
`status` field may hold an arbitrary string, `spouseObj` is an object or
absent, and `children` is either a proper array or not-an-array/absent
(collapsed to `none`, mirroring the `Array.isArray` test). -/
inductive Raw where
  | mk (id : Option String) (name : Option String)
       (image : Option String) (address : Option String)
       (phone : Option String) (occupation : Option String)
       (status : Option String)
       (spouseObj : Option Raw)
       (children : Option (List Raw))

mutual

/-- `normalize` from `FamilyEditor.tsx` (lines 147–162): fill absent
`id` with the document id (`fb`), absent `name` with `""`, coerce every
absent optional field to explicit null, map `status` to `Deceased` only
on the literal string, recurse into `spouseObj` when present and into
`children` when it is an array.  Split into mutual helpers for the
nested recursion. -/
def normalize (fb : String) : Raw → Member
  | .mk i n im ad ph oc st sp ch =>
      Member.mk (i.getD fb) (n.getD "") im ad ph oc
        (if st = some "Deceased" then some Status.deceased else none)
        (normalizeSpouse fb sp)
        (normalizeChildren fb ch)

def normalizeSpouse (fb : String) : Option Raw → Option Member
  | none => none
  | some s => some (normalize fb s)

def normalizeChildren (fb : String) : Option (List Raw) → Option (List Member)
  | none => none
  | some cs => some (normalizeList fb cs)

def normalizeList (fb : String) : List Raw → List Member
  | [] => []
  | c :: cs => normalize fb c :: normalizeList fb cs

end

mutual

/-- The inclusion of an in-memory `Member` back into the raw-document
world: a `Member` handed to `normalize` again is the same JavaScript
object, with `status` being the literal string when deceased. -/
def memberToRaw : Member → Raw
  | .mk i n im ad ph oc st sp ch =>
      Raw.mk (some i) (some n) im ad ph oc
        (match st with | some Status.deceased => some "Deceased" | none => none)
        (spouseToRaw sp) (childrenToRaw ch)

def spouseToRaw : Option Member → Option Raw
  | none => none
  | some m => some (memberToRaw m)

def childrenToRaw : Option (List Member) → Option (List Raw)
  | none => none
  | some cs => some (listToRaw cs)

def listToRaw : List Member → List Raw
  | [] => []
  | m :: ms => memberToRaw m :: listToRaw ms

end

mutual

/-- Normalizing the raw image of any canonical member gives it back:
every field of a `Member` is already in the shape `normalize` produces. -/
theorem normalize_memberToRaw (fb : String) :
    ∀ m : Member, normalize fb (memberToRaw m) = m
  | .mk i n im ad ph oc st sp ch => by
      cases st with
      | none =>
          simp [memberToRaw, normalize, normalize_spouseToRaw fb sp,
            normalize_childrenToRaw fb ch]
      | some s =>
          cases s
          simp [memberToRaw, normalize, normalize_spouseToRaw fb sp,
            normalize_childrenToRaw fb ch]

theorem normalize_spouseToRaw (fb : String) :
    ∀ sp : Option Member, normalizeSpouse fb (spouseToRaw sp) = sp
  | none => rfl
  | some m => by
      simp [spouseToRaw, normalizeSpouse, normalize_memberToRaw fb m]

theorem normalize_childrenToRaw (fb : String) :
    ∀ ch : Option (List Member), normalizeChildren fb (childrenToRaw ch) = ch
  | none => rfl
  | some cs => by
      simp [childrenToRaw, normalizeChildren, normalize_listToRaw fb cs]

theorem normalize_listToRaw (fb : String) :
    ∀ cs : List Member, normalizeList fb (listToRaw cs) = cs
  | [] => rfl
  | c :: cs => by
      simp [listToRaw, normalizeList, normalize_memberToRaw fb c,
        normalize_listToRaw fb cs]

end

/-! ## ID allocation (`generateNextId`, MemberEditor.tsx lines 50–56) -/

/-- The digit characters kept by `id.replace(/\D/g, '')`. -/
def stripNonDigits (s : String) : List Char := s.data.filter Char.isDigit

/-- Numeric value of one decimal digit character. -/
def charVal (c : Char) : Nat := c.toNat - Char.toNat '0'

/-- Decimal value of a digit string, as `parseInt` reads a pure-digit
string left to right. -/
def digitsVal (ds : List Char) : Nat :=
  ds.foldl (fun acc c => acc * 10 + charVal c) 0

/-- `parseInt(id.replace(/\D/g, ''))`: `none` models `NaN`, produced
exactly when no digit characters remain. -/
def parseStripped (s : String) : Option Nat :=
  let ds := stripNonDigits s
  if ds.isEmpty then none else some (digitsVal ds)

/-- `generateNextId` from MemberEditor.tsx: strip non-digits, parse,
drop the `NaN`s, take `Math.max(...numericIds, 0)` and return
`(maxId + 1).toString()`. -/
def generateNextId (existingIds : List String) : String :=
  let numericIds := existingIds.filterMap parseStripped
  let maxId := numericIds.foldl max 0
  toString (maxId + 1)

/-! ## Editor handlers (MemberEditor.tsx) -/

/-- Model of JavaScript `String.prototype.trim`: drop leading and
trailing whitespace characters. -/
def jsTrim (s : String) : String :=
  String.mk (((s.data.dropWhile Char.isWhitespace).reverse.dropWhile
    Char.isWhitespace).reverse)

/-- `createMember` (MemberEditor.tsx lines 38–48) at its two call
sites, which supply only `id` and `name`: every omitted field is filled
with `?? null`. -/
def createMember (id name : String) : Member :=
  Member.mk id name none none none none none none none

/-- The nine keys of `Member` (`keyof Member`). -/
inductive Field where
  | id | name | image | address | phone | occupation | status | spouseObj | children
deriving DecidableEq

/-- A JavaScript value for a slot of type `α`: `undefined`, `null`, or
a proper value. -/
inductive JVal (α : Type) where
  | undef
  | null
  | val (a : α)

/-- MemberEditor.tsx line 137: `value === undefined ? null : value`. -/
def jsSafe {α : Type} : JVal α → JVal α
  | .undef => .null
  | v => v

/-- A nullable JS value landing in an `Option` slot. -/
def JVal.toOption {α : Type} : JVal α → Option α
  | .undef => none
  | .null => none
  | .val a => some a

/-- A `handleChange` invocation: the field name together with the new
value.  `id` and `name` are non-nullable in the `Member` type and every
call site passes a plain string for them; the nullable slots receive an
arbitrary JS value. -/
inductive FieldEdit where
  | id (v : String)
  | name (v : String)
  | image (v : JVal String)
  | address (v : JVal String)
  | phone (v : JVal String)
  | occupation (v : JVal String)
  | status (v : JVal Status)
  | spouseObj (v : JVal Member)
  | children (v : JVal (List Member))

/-- The field an edit targets. -/
def FieldEdit.field : FieldEdit → Field
  | .id _ => .id
  | .name _ => .name
  | .image _ => .image
  | .address _ => .address
  | .phone _ => .phone
  | .occupation _ => .occupation
  | .status _ => .status
  | .spouseObj _ => .spouseObj
  | .children _ => .children

/-- `handleChange` (MemberEditor.tsx lines 135–141):
`const safeValue = value === undefined ? null : value;`
`const updated = { ...localMember, [field]: safeValue };` — a copy of
the member with exactly the named key replaced. -/
def handleChange (m : Member) (e : FieldEdit) : Member :=
  match m, e with
  | .mk _ n im ad ph oc st sp ch, .id v => .mk v n im ad ph oc st sp ch
  | .mk i _ im ad ph oc st sp ch, .name v => .mk i v im ad ph oc st sp ch
  | .mk i n _ ad ph oc st sp ch, .image v =>
      .mk i n ((jsSafe v).toOption) ad ph oc st sp ch
  | .mk i n im _ ph oc st sp ch, .address v =>
      .mk i n im ((jsSafe v).toOption) ph oc st sp ch
  | .mk i n im ad _ oc st sp ch, .phone v =>
      .mk i n im ad ((jsSafe v).toOption) oc st sp ch
  | .mk i n im ad ph _ st sp ch, .occupation v =>
      .mk i n im ad ph ((jsSafe v).toOption) st sp ch
  | .mk i n im ad ph oc _ sp ch, .status v =>
      .mk i n im ad ph oc ((jsSafe v).toOption) sp ch
  | .mk i n im ad ph oc st _ ch, .spouseObj v =>
      .mk i n im ad ph oc st ((jsSafe v).toOption) ch
  | .mk i n im ad ph oc st sp _, .children v =>
      .mk i n im ad ph oc st sp ((jsSafe v).toOption)

/-- The value of one field of a member, packaged heterogeneously so that
fields can be compared across an edit. -/
inductive FVal where
  | vs (v : String)
  | vos (v : Option String)
  | vst (v : Option Status)
  | vom (v : Option Member)
  | vocs (v : Option (List Member))

/-- Projection of a member onto one field. -/
def Member.proj (m : Member) : Field → FVal
  | .id => .vs m.id
  | .name => .vs m.name
  | .image => .vos m.image
  | .address => .vos m.address
  | .phone => .vos m.phone
  | .occupation => .vos m.occupation
  | .status => .vst m.status
  | .spouseObj => .vom m.spouseObj
  | .children => .vocs m.children

/-- The value an edit stores into its slot, after the
`undefined → null` coercion. -/
def FieldEdit.storedVal : FieldEdit → FVal
  | .id v => .vs v
  | .name v => .vs v
  | .image v => .vos ((jsSafe v).toOption)
  | .address v => .vos ((jsSafe v).toOption)
  | .phone v => .vos ((jsSafe v).toOption)
  | .occupation v => .vos ((jsSafe v).toOption)
  | .status v => .vst ((jsSafe v).toOption)
  | .spouseObj v => .vom ((jsSafe v).toOption)
  | .children v => .vocs ((jsSafe v).toOption)

/-- The spouse id minted by `handleAddSpouse` (line 171):
`` const spouseId = `${localMember.id}s` ``. -/
def spouseIdOf (m : Member) : String := m.id ++ "s"

/-- `handleAddSpouse` (MemberEditor.tsx lines 169–180), as a transformer
of the pair (member, shared id registry): blank trimmed name returns
unchanged; otherwise mint `<id>s`, build the spouse via `createMember`,
store it through `handleChange('spouseObj', ...)` and append the new id
to the registry via `onIdsUpdate([...allMemberIds, spouseId])`. -/
def handleAddSpouse (newSpouseName : String) (m : Member)
    (allMemberIds : List String) : Member × List String :=
  if (jsTrim newSpouseName).isEmpty then (m, allMemberIds)
  else
    let spouseId := spouseIdOf m
    let newSpouse := createMember spouseId newSpouseName
    (handleChange m (.spouseObj (.val newSpouse)), allMemberIds ++ [spouseId])

/-- `handleAddChild` (MemberEditor.tsx lines 182–194): blank trimmed
name returns unchanged; otherwise allocate `generateNextId`, append the
new child to `[...(localMember.children || []), newChild]`, store it
through `handleChange('children', ...)` and register the id. -/
def handleAddChild (newChildName : String) (m : Member)
    (allMemberIds : List String) : Member × List String :=
  if (jsTrim newChildName).isEmpty then (m, allMemberIds)
  else
    let newId := generateNextId allMemberIds
    let newChild := createMember newId newChildName
    let updatedChildren := (m.children.getD []) ++ [newChild]
    (handleChange m (.children (.val updatedChildren)), allMemberIds ++ [newId])

/-- The spouse sub-editor's delete callback (MemberEditor.tsx lines
417–419): `handleChange('spouseObj', null)`; the id registry is not
touched. -/
def spouseOnDelete (m : Member) : Member :=
  handleChange m (.spouseObj .null)

/-- `children.filter((_, i) => i !== index)` from the child delete
callback: keep the elements whose position differs from `index`. -/
def filterIdxNe (cs : List Member) (index : Nat) : List Member :=
  (cs.enum.filter (fun p => p.1 != index)).map Prod.snd

/-- The child sub-editor's delete callback (MemberEditor.tsx lines
442–445): filter out position `index`, then
`handleChange('children', newChildren.length > 0 ? newChildren : null)`;
the id registry is not touched. -/
def childOnDelete (m : Member) (index : Nat) : Member :=
  let newChildren := filterIdxNe (m.children.getD []) index
  handleChange m
    (.children (if newChildren.length > 0 then .val newChildren else .null))

/-- The success path of `handleImageUpload` (MemberEditor.tsx lines
143–167): the blob goes to the storage reference
`` ref(storage, `images/${localMember.id}.jpg`) `` and the member's
`image` field is then set to `` `${localMember.id}.jpg` `` through
`handleChange`.  The result pairs the storage key with the updated
member. -/
def handleImageUploadSuccess (m : Member) : String × Member :=
  let storagePath := "images/" ++ m.id ++ ".jpg"
  let newFilename := m.id ++ ".jpg"
  (storagePath, handleChange m (.image (.val newFilename)))

/-- `fetchExistingImageUrl` (MemberEditor.tsx line 111) resolves a
stored `image` field value to the storage reference
`` ref(storage, `images/${localMember.image}`) ``. -/
def imageRefPath (image : String) : String := "images/" ++ image

/-- The root container's delete callback (FamilyEditor.tsx lines
232–234): its body is only `alert('Cannot delete root family member')`;
the `family` state and the id registry are returned unchanged, paired
with the notification text. -/
def rootOnDelete (family : Member) (allMemberIds : List String) :
    (Member × List String) × String :=
  ((family, allMemberIds), "Cannot delete root family member")

/-! ## Aggregate counting (`countMembers`, Dashboard.tsx lines 440–455) -/

mutual

/-- The body of `countMembers` for a present node: `count = 1`, plus
`1` when `node.spouseObj` is set (the spouse subtree is not entered),
plus `countMembers(child)` for every entry of a proper `children`
array.  Split into mutual helpers for the nested recursion. -/
def countMember : Member → Nat
  | .mk _ _ _ _ _ _ _ sp ch =>
      1 + (match sp with | some _ => 1 | none => 0) + countChildren ch

def countChildren : Option (List Member) → Nat
  | none => 0
  | some cs => countList cs

def countList : List Member → Nat
  | [] => 0
  | c :: cs => countMember c + countList cs

end

/-- `countMembers` from Dashboard.tsx: `if (!node) return 0`, else count
the node as above. -/
def countMembers : Option Member → Nat
  | none => 0
  | some m => countMember m

/-! ## Helper lemmas: decimal representations and the allocator -/

theorem charVal_digitChar {d : Nat} (h : d < 10) :
    charVal (Nat.digitChar d) = d := by
  interval_cases d <;> rfl

theorem digitChar_isDigit {d : Nat} (h : d < 10) :
    (Nat.digitChar d).isDigit = true := by
  interval_cases d <;> rfl

theorem toDigitsCore_all_digits :
    ∀ (fuel n : Nat) (ds : List Char), (∀ c ∈ ds, c.isDigit = true) →
      ∀ c ∈ Nat.toDigitsCore 10 fuel n ds, c.isDigit = true := by
  intro fuel
  induction fuel with
  | zero => intro n ds hds; exact hds
  | succ fuel ih =>
      intro n ds hds
      have hdig : (Nat.digitChar (n % 10)).isDigit = true :=
        digitChar_isDigit (Nat.mod_lt _ (by omega))
      have hcons : ∀ c ∈ Nat.digitChar (n % 10) :: ds, c.isDigit = true := by
        intro c hc
        rcases List.mem_cons.mp hc with h | h
        · exact h ▸ hdig
        · exact hds c h
      simp only [Nat.toDigitsCore]
      by_cases h0 : n / 10 = 0
      · simp only [h0, if_pos rfl]
        exact hcons
      · simp only [if_neg h0]
        exact ih (n / 10) _ hcons

theorem toDigitsCore_length_le :
    ∀ (fuel n : Nat) (ds : List Char),
      ds.length ≤ (Nat.toDigitsCore 10 fuel n ds).length := by
  intro fuel
  induction fuel with
  | zero => intro n ds; exact Nat.le_refl _
  | succ fuel ih =>
      intro n ds
      simp only [Nat.toDigitsCore]
      by_cases h0 : n / 10 = 0
      · rw [if_pos h0]
        simp [List.length_cons]
      · rw [if_neg h0]
        calc ds.length ≤ (Nat.digitChar (n % 10) :: ds).length := by
              simp [List.length_cons]
          _ ≤ _ := ih (n / 10) _

theorem toDigitsCore_ne_nil (fuel n : Nat) (ds : List Char) :
    Nat.toDigitsCore 10 (fuel + 1) n ds ≠ [] := by
  simp only [Nat.toDigitsCore]
  by_cases h0 : n / 10 = 0
  · simp [h0]
  · simp only [if_neg h0]
    intro hnil
    have := toDigitsCore_length_le fuel (n / 10) (Nat.digitChar (n % 10) :: ds)
    rw [hnil] at this
    simp at this

/-- The value accumulated when the decimal digits of `n` are appended
after an accumulator `acc`, mirroring how `toDigitsCore` prepends
digits. -/
def pushNum (acc n : Nat) : Nat :=
  if n < 10 then acc * 10 + n else pushNum acc (n / 10) * 10 + n % 10
termination_by n
decreasing_by exact Nat.div_lt_self (by omega) (by omega)

theorem pushNum_zero : ∀ n : Nat, pushNum 0 n = n := by
  intro n
  induction n using Nat.strong_induction_on with
  | _ n ih =>
      rw [pushNum]
      by_cases h : n < 10
      · simp [h]
      · rw [if_neg h, ih (n / 10) (Nat.div_lt_self (by omega) (by omega))]
        omega

theorem foldl_toDigitsCore :
    ∀ (fuel n acc : Nat) (ds : List Char), n < fuel →
      List.foldl (fun acc c => acc * 10 + charVal c) acc
          (Nat.toDigitsCore 10 fuel n ds) =
        List.foldl (fun acc c => acc * 10 + charVal c) (pushNum acc n) ds := by
  intro fuel
  induction fuel with
  | zero => intro n acc ds h; omega
  | succ fuel ih =>
      intro n acc ds h
      simp only [Nat.toDigitsCore]
      by_cases h0 : n / 10 = 0
      · have hn : n < 10 := (Nat.div_eq_zero_iff (by omega)).mp h0
        rw [if_pos h0, List.foldl_cons]
        congr 1
        show acc * 10 + charVal (Nat.digitChar (n % 10)) = pushNum acc n
        rw [charVal_digitChar (Nat.mod_lt _ (by omega)), Nat.mod_eq_of_lt hn,
          pushNum, if_pos hn]
      · have hn : ¬ n < 10 := by
          intro hlt
          exact h0 ((Nat.div_eq_zero_iff (by omega)).mpr hlt)
        have hdiv : n / 10 < fuel := by omega
        rw [if_neg h0, ih (n / 10) acc _ hdiv, List.foldl_cons]
        congr 1
        show pushNum acc (n / 10) * 10 + charVal (Nat.digitChar (n % 10)) =
          pushNum acc n
        rw [charVal_digitChar (Nat.mod_lt _ (by omega))]
        conv_rhs => rw [pushNum]
        rw [if_neg hn]

theorem digitsVal_repr (n : Nat) : digitsVal (Nat.repr n).data = n := by
  show List.foldl (fun acc c => acc * 10 + charVal c) 0
      ((Nat.toDigits 10 n).asString).data = n
  have hdata : ((Nat.toDigits 10 n).asString).data = Nat.toDigits 10 n := rfl
  rw [hdata]
  show List.foldl (fun acc c => acc * 10 + charVal c) 0
      (Nat.toDigitsCore 10 (n + 1) n []) = n
  rw [foldl_toDigitsCore (n + 1) n 0 [] (Nat.lt_succ_self n)]
  exact pushNum_zero n

theorem repr_all_digits (n : Nat) :
    ∀ c ∈ (Nat.repr n).data, c.isDigit = true := by
  show ∀ c ∈ Nat.toDigits 10 n, c.isDigit = true
  exact toDigitsCore_all_digits (n + 1) n [] (by intro c hc; cases hc)

theorem repr_data_ne_nil (n : Nat) : (Nat.repr n).data ≠ [] := by
  show Nat.toDigitsCore 10 (n + 1) n [] ≠ []
  exact toDigitsCore_ne_nil n n []

theorem parseStripped_repr (n : Nat) : parseStripped (Nat.repr n) = some n := by
  have hfilter : stripNonDigits (Nat.repr n) = (Nat.repr n).data :=
    List.filter_eq_self.mpr (repr_all_digits n)
  have hne : (Nat.repr n).data.isEmpty = false := by
    rw [Bool.eq_false_iff]
    intro hempty
    exact repr_data_ne_nil n (List.isEmpty_iff.mp hempty)
  simp only [parseStripped]
  rw [hfilter, hne]
  simp [digitsVal_repr]

theorem le_foldl_max :
    ∀ (l : List Nat) (a : Nat), a ≤ l.foldl max a := by
  intro l
  induction l with
  | nil => intro a; exact Nat.le_refl a
  | cons x l ih =>
      intro a
      calc a ≤ max a x := Nat.le_max_left a x
        _ ≤ (x :: l).foldl max a := ih (max a x)

theorem mem_le_foldl_max :
    ∀ (l : List Nat) (a x : Nat), x ∈ l → x ≤ l.foldl max a := by
  intro l
  induction l with
  | nil => intro a x hx; cases hx
  | cons y l ih =>
      intro a x hx
      rcases List.mem_cons.mp hx with h | h
      · subst h
        calc x ≤ max a x := Nat.le_max_right a x
          _ ≤ (x :: l).foldl max a := le_foldl_max l (max a x)
      · exact ih (max a y) x h

/-- The freshly allocated child id is absent from the registry it was
computed from: its numeric value strictly exceeds the numeric value of
every parsable id, and it consists solely of digits. -/
theorem generateNextId_not_mem (ids : List String) :
    generateNextId ids ∉ ids := by
  intro hmem
  have hgen : generateNextId ids =
      Nat.repr ((ids.filterMap parseStripped).foldl max 0 + 1) := rfl
  set maxId := (ids.filterMap parseStripped).foldl max 0 with hmax
  rw [hgen] at hmem
  have hparse : parseStripped (Nat.repr (maxId + 1)) = some (maxId + 1) :=
    parseStripped_repr (maxId + 1)
  have hin : (maxId + 1) ∈ ids.filterMap parseStripped :=
    List.mem_filterMap.mpr ⟨Nat.repr (maxId + 1), hmem, hparse⟩
  have hle : maxId + 1 ≤ maxId := mem_le_foldl_max _ 0 _ hin
  omega

theorem jsTrim_empty_of_whitespace {s : String}
    (h : ∀ c ∈ s.data, c.isWhitespace = true) : (jsTrim s).isEmpty = true := by
  unfold jsTrim
  have h1 : s.data.dropWhile Char.isWhitespace = [] :=
    List.dropWhile_eq_nil_iff.mpr h
  rw [h1]
  rfl

theorem enumFrom_filter_ne_map_snd {α : Type} :
    ∀ (cs : List α) (n k : Nat),
      ((List.enumFrom n cs).filter (fun p => p.1 != n + k)).map Prod.snd =
        cs.eraseIdx k := by
  intro cs
  induction cs with
  | nil => intro n k; rfl
  | cons c cs ih =>
      intro n k
      rw [List.enumFrom_cons]
      cases k with
      | zero =>
          rw [List.filter_cons]
          have hcond : ((n, c).1 != n + 0) = false := by simp
          rw [hcond]
          have hkeep : (List.enumFrom (n + 1) cs).filter
              (fun p => p.1 != n + 0) = List.enumFrom (n + 1) cs := by
            apply List.filter_eq_self.mpr
            intro a ha
            obtain ⟨i, x⟩ := a
            obtain ⟨h1, _, _⟩ := List.mem_enumFrom ha
            simp only [bne_iff_ne, ne_eq]
            omega
          rw [if_neg (by simp), hkeep, List.enumFrom_map_snd]
          rfl
      | succ k =>
          rw [List.filter_cons]
          have hcond : ((n, c).1 != n + (k + 1)) = true := by
            simp only [bne_iff_ne, ne_eq]
            omega
          rw [hcond, if_pos rfl, List.map_cons]
          have hshift : n + (k + 1) = (n + 1) + k := by omega
          rw [hshift, ih (n + 1) k]
          rfl

/-- The index-based filter in the child delete callback removes exactly
the element at the given position. -/
theorem filterIdxNe_eq_eraseIdx (cs : List Member) (i : Nat) :
    filterIdxNe cs i = cs.eraseIdx i := by
  unfold filterIdxNe
  have henum : List.enum cs = List.enumFrom 0 cs := rfl
  have hfun : (fun p : Nat × Member => p.1 != i) =
      (fun p : Nat × Member => p.1 != 0 + i) := by
    funext p
    rw [Nat.zero_add]
  rw [henum, hfun, enumFrom_filter_ne_map_snd]

theorem countList_eq_sum (cs : List Member) :
    countList cs = (cs.map (fun c => countMembers (some c))).sum := by
  induction cs with
  | nil => rfl
  | cons c cs ih => simp [countList, countMembers, ih]

theorem contains_eq_false_of_not_mem {l : List String} {a : String}
    (h : a ∉ l) : l.contains a = false := by
  cases h2 : List.elem a l with
  | false => exact h2
  | true => exact absurd (List.mem_of_elem_eq_true h2) h

/-- A string ending in the letter `s` is never an output of the numeric
allocator, whose outputs consist solely of decimal digits. -/
theorem append_s_ne_generateNextId (s : String) (ids : List String) :
    ((s ++ "s") == generateNextId ids) = false := by
  rw [beq_eq_false_iff_ne]
  intro heq
  have hdata : (s ++ "s").data = s.data ++ ['s'] := String.data_append s "s"
  have hgen : generateNextId ids =
      Nat.repr ((ids.filterMap parseStripped).foldl max 0 + 1) := rfl
  set m := (ids.filterMap parseStripped).foldl max 0 + 1 with hm
  have hEqData : s.data ++ ['s'] = (Nat.repr m).data := by
    rw [← hdata, heq, hgen]
  have hne := repr_data_ne_nil m
  have hlast1 : (s.data ++ ['s']).getLast? = some 's' := List.getLast?_concat _
  have hlast2 : (Nat.repr m).data.getLast? =
      some ((Nat.repr m).data.getLast hne) := List.getLast?_eq_getLast _ hne
  rw [hEqData, hlast2] at hlast1
  have hmem : (Nat.repr m).data.getLast hne ∈ (Nat.repr m).data :=
    List.getLast_mem hne
  have hdig : ((Nat.repr m).data.getLast hne).isDigit = true :=
    repr_all_digits m _ hmem
  have hs : ('s' : Char) = (Nat.repr m).data.getLast hne :=
    Option.some.inj hlast1.symm
  rw [← hs] at hdig
  exact absurd hdig (by decide)

theorem foldl_max_filterMap_eq (ids : List String) :
    ∀ a : Nat, (ids.filterMap parseStripped).foldl max a =
      (ids.map (fun s => (parseStripped s).getD 0)).foldl max a := by
  induction ids with
  | nil => intro a; rfl
  | cons s ids ih =>
      intro a
      cases hp : parseStripped s with
      | none => simp [List.filterMap_cons, List.map_cons, hp, ih]
      | some v => simp [List.filterMap_cons, List.map_cons, hp, ih]

theorem children_handleChange (m : Member) (v : JVal (List Member)) :
    (handleChange m (.children v)).children = (jsSafe v).toOption := by
  cases m with
  | mk i n im ad ph oc st sp ch => rfl

/-! ## The claims -/

/-- C1: the load-time normalization is idempotent — feeding the raw
image of an already-normalized tree back through `normalize` changes
nothing, whatever document-id fallbacks are in effect on the two
passes. -/
theorem C1_normalize_idempotent (fb1 fb2 : String) (T : Raw) :
    normalize fb2 (memberToRaw (normalize fb1 T)) = normalize fb1 T :=
  normalize_memberToRaw fb2 (normalize fb1 T)

/-- The allocation rule in the spec's words: every id contributes the
integer parsed from its digit portion, unparsable or non-numeric ids
contribute the floor value `0`, and the allocator returns the maximum
plus one, converted back to a string. -/
def specNextId (ids : List String) : String :=
  toString ((ids.map (fun s => (parseStripped s).getD 0)).foldl max 0 + 1)

/-- C2: `generateNextId` computes exactly the spec's allocation rule —
strip non-digits, parse, treat unparsable ids as the floor value, take
the maximum, return max + 1 as a string — and on `["1","3","7a"]` it
returns `"8"`. -/
theorem C2_generateNextId_correct :
    (∀ ids : List String, generateNextId ids = specNextId ids) ∧
      generateNextId ["1", "3", "7a"] = "8" := by
  constructor
  · intro ids
    simp only [generateNextId, specNextId]
    rw [foldl_max_filterMap_eq]
  · decide

/-- C3: the spouse id is the holder's id with the fixed marker `s`
appended; holder `"5"` yields `"5s"`; and a spouse id never equals any
child id the numeric allocator can produce, for any registry. -/
theorem C3_spouse_id_minting :
    (∀ m : Member, spouseIdOf m = m.id ++ "s") ∧
      spouseIdOf (createMember "5" "x") = "5s" ∧
      ∀ (m : Member) (ids : List String),
        (spouseIdOf m == generateNextId ids) = false := by
  refine ⟨fun m => rfl, rfl, fun m ids => ?_⟩
  exact append_s_ne_generateNextId m.id ids

def c4Grandchild : Member := createMember "5" "grandchild"
def c4ChildA : Member := createMember "3" "childA"
def c4ChildB : Member :=
  Member.mk "4" "childB" none none none none none none (some [c4Grandchild])
def c4SpouseKid : Member := createMember "9" "spouseKid"
/-- A spouse who has a child of her own, to exhibit that the aggregate
count does not enter the spouse's subtree. -/
def c4Spouse : Member :=
  Member.mk "1s" "spouse" none none none none none none (some [c4SpouseKid])
def c4Root : Member :=
  Member.mk "1" "root" none none none none none (some c4Spouse)
    (some [c4ChildA, c4ChildB])

/-- C4: the aggregate count is 1 for the node, plus 1 when a spouse is
present (the spouse's own subtree is not expanded), plus the recursive
count of every child subtree; absence counts 0; the example root — a
spouse (even one with her own child) and two children, one of them with
one child — counts 5. -/
theorem C4_countMembers :
    countMembers none = 0 ∧
      (∀ m : Member, countMembers (some m) =
        1 + (if m.spouseObj.isSome then 1 else 0) +
          ((m.children.getD []).map (fun c => countMembers (some c))).sum) ∧
      countMembers (some c4Root) = 5 := by
  refine ⟨rfl, ?_, rfl⟩
  intro m
  cases m with
  | mk i n im ad ph oc st sp ch =>
      cases sp <;> cases ch <;>
        simp [countMembers, countMember, countChildren, Member.spouseObj,
          Member.children, countList_eq_sum]

/-- C5: a field edit stores exactly the new value into the named slot
(an undefined value first coerced to the explicit null marker) and
leaves every other field untouched. -/
theorem C5_field_edit_frame (m : Member) (e : FieldEdit) :
    (handleChange m e).proj e.field = e.storedVal ∧
      ∀ f : Field, f ≠ e.field → (handleChange m e).proj f = m.proj f := by
  cases m with
  | mk i n im ad ph oc st sp ch =>
      cases e <;>
        exact ⟨rfl, by intro f hf; cases f <;>
          first | exact absurd rfl hf | rfl⟩

def c5Member : Member :=
  Member.mk "1" "Ann" (some "old.jpg") (some "addr") none none
    (some Status.deceased) none none

/-- Witness for C5: clearing `image` with an undefined value stores the
null marker and leaves `name` unchanged on a concrete member. -/
theorem C5_field_edit_frame_witness :
    (handleChange c5Member (FieldEdit.image JVal.undef)).proj Field.name =
        c5Member.proj Field.name ∧
      (handleChange c5Member (FieldEdit.image JVal.undef)).proj
          (FieldEdit.field (FieldEdit.image JVal.undef)) =
        FieldEdit.storedVal (FieldEdit.image JVal.undef) :=
  ⟨(C5_field_edit_frame c5Member (FieldEdit.image JVal.undef)).2 Field.name
      (by decide),
    (C5_field_edit_frame c5Member (FieldEdit.image JVal.undef)).1⟩

/-- C6: when the entered name is blank or consists only of whitespace,
add-spouse and add-child both leave the member and the shared id
registry unchanged. -/
theorem C6_blank_name_noop (m : Member) (ids : List String) (name : String)
    (h : ∀ c ∈ name.data, c.isWhitespace = true) :
    handleAddSpouse name m ids = (m, ids) ∧
      handleAddChild name m ids = (m, ids) := by
  have ht := jsTrim_empty_of_whitespace h
  constructor
  · unfold handleAddSpouse
    rw [ht]
    simp
  · unfold handleAddChild
    rw [ht]
    simp

/-- Witness for C6 at a whitespace-only name and a concrete member. -/
theorem C6_blank_name_noop_witness :
    handleAddSpouse " " (createMember "1" "R") ["1"] =
        (createMember "1" "R", ["1"]) ∧
      handleAddChild " " (createMember "1" "R") ["1"] =
        (createMember "1" "R", ["1"]) :=
  C6_blank_name_noop (createMember "1" "R") ["1"] " " (by decide)

/-- C7: deleting the child at a valid index removes exactly that element
and preserves the order of the remaining children; if the list thereby
becomes empty, the `children` slot is set to the explicit null marker
rather than an empty sequence. -/
theorem C7_child_delete (m : Member) (cs : List Member) (i : Nat)
    (hch : m.children = some cs) (hi : i < cs.length) :
    (childOnDelete m i).children =
      if cs.length = 1 then none
      else some (cs.take i ++ cs.drop (i + 1)) := by
  have hcd : childOnDelete m i = handleChange m
      (.children (if (filterIdxNe cs i).length > 0
        then .val (filterIdxNe cs i) else .null)) := by
    unfold childOnDelete
    rw [hch]
    rfl
  rw [hcd, children_handleChange, filterIdxNe_eq_eraseIdx]

  by_cases h1 : cs.length = 1
  · have hlen : (cs.eraseIdx i).length = 0 := by
      rw [List.length_eraseIdx]
      simp [hi]
      omega
    rw [if_pos h1, if_neg (by omega)]
    rfl
  · have hlen : (cs.eraseIdx i).length > 0 := by
      rw [List.length_eraseIdx]
      simp [hi]
      omega
    rw [if_neg h1, if_pos hlen]
    show some (cs.eraseIdx i) = some (cs.take i ++ cs.drop (i + 1))
    rw [List.eraseIdx_eq_take_drop_succ]

def c7Member : Member :=
  Member.mk "1" "R" none none none none none none (some [c4ChildA])

/-- Witness for C7: deleting the only child of a concrete member leaves
the explicit null marker. -/
theorem C7_child_delete_witness :
    (childOnDelete c7Member 0).children =
      if ([c4ChildA] : List Member).length = 1 then none
      else some (([c4ChildA] : List Member).take 0 ++
        ([c4ChildA] : List Member).drop 1) :=
  C7_child_delete c7Member [c4ChildA] 0 rfl (by decide)

def c8Member : Member := createMember "1" "Ann"

/-- Counterexample to C8 as stated: for the member with id "1" the
storage key is "images/1.jpg", but the stored `image` field is the bare
filename "1.jpg" — not the storage key. -/
theorem C8_counterexample :
    (handleImageUploadSuccess c8Member).1 = "images/1.jpg" ∧
      (handleImageUploadSuccess c8Member).2.image = some "1.jpg" ∧
      ((handleImageUploadSuccess c8Member).2.image ==
        some (handleImageUploadSuccess c8Member).1) = false := by
  refine ⟨rfl, rfl, ?_⟩
  decide

/-- C8 amended: the blob is stored under the deterministic key
`images/<id>.jpg` (so a re-upload for the same person overwrites the
prior blob), and the member's `image` field is set to the bare filename
`<id>.jpg`, which the image fetch path resolves back to exactly that
storage key. -/
theorem C8_image_upload (m : Member) :
    (handleImageUploadSuccess m).1 = "images/" ++ m.id ++ ".jpg" ∧
      (handleImageUploadSuccess m).2.image = some (m.id ++ ".jpg") ∧
      imageRefPath (m.id ++ ".jpg") = (handleImageUploadSuccess m).1 := by
  cases m with
  | mk i n im ad ph oc st sp ch =>
      refine ⟨rfl, rfl, ?_⟩
      show "images/" ++ (i ++ ".jpg") = "images/" ++ i ++ ".jpg"
      rw [String.append_assoc]

def c9Root : Member := createMember "5" "root"

/-- Counterexample to C9 as stated: the spouse id "5s" is minted and
registered, the spouse node is deleted (the registry keeps "5s"), and a
later add-spouse on the same holder mints the identical id "5s" again. -/
theorem C9_counterexample :
    (handleAddSpouse "Eve" c9Root ["5"]).1.spouseObj.map Member.id =
        some "5s" ∧
      (handleAddSpouse "Eve" c9Root ["5"]).2 = ["5", "5s"] ∧
      (spouseOnDelete (handleAddSpouse "Eve" c9Root ["5"]).1).spouseObj =
        none ∧
      (handleAddSpouse "Ann"
          (spouseOnDelete (handleAddSpouse "Eve" c9Root ["5"]).1)
          (handleAddSpouse "Eve" c9Root ["5"]).2).1.spouseObj.map Member.id =
        some "5s" :=
  ⟨rfl, rfl, rfl, rfl⟩

/-- C9 amended: ids minted by the numeric child allocator are never
reused — the registry retains the ids of deleted nodes, and the
allocator's output is never an id already in the registry; spouse ids,
by contrast, are deterministic and can be re-minted after a spouse
deletion. -/
theorem C9_child_ids_fresh (ids : List String) :
    ids.contains (generateNextId ids) = false :=
  contains_eq_false_of_not_mem (generateNextId_not_mem ids)

/-- C10: the root container's delete callback only issues a
notification; the family tree and the id registry are returned
unchanged, so the tree keeps its root throughout an editing session. -/
theorem C10_root_delete_noop (family : Member) (allMemberIds : List String) :
    (rootOnDelete family allMemberIds).1 = (family, allMemberIds) ∧
      (rootOnDelete family allMemberIds).2 =
        "Cannot delete root family member" :=
  ⟨rfl, rfl⟩

end FamilyVault
